import Mathlib

/-!
Verification of the `genesis` crawler core (crawl scheduler, fetch path,
fingerprinting, HTML extraction and persistence) against its specification.

Each Rust module is shallowly embedded: pure functions become Lean
functions over `List`/`String`/`Nat`; the `HashMap<String, VecDeque<String>>`
of the scheduler becomes an association list with first-occurrence lookup
and update (key uniqueness is maintained as an invariant, mirroring the
real map); mutation becomes explicit state passing.
-/

set_option maxHeartbeats 1000000

namespace Genesis

/-! ## Scheduler state: `src/genesis/src/crawler.rs` -/

/-- First-occurrence association-list lookup, mirroring `HashMap::get`
on a map whose keys are unique. -/
def lookupA (qs : List (String × List String)) (d : String) : Option (List String) :=
  match qs with
  | [] => none
  | (k, v) :: rest => if k = d then some v else lookupA rest d

/-- Replace the value stored at the first occurrence of key `d`,
mirroring in-place mutation of the queue obtained from `HashMap::get_mut`. -/
def updateA (qs : List (String × List String)) (d : String) (q : List String) :
    List (String × List String) :=
  match qs with
  | [] => []
  | (k, v) :: rest => if k = d then (k, q) :: rest else (k, v) :: updateA rest d q

/-- Keys of the association list (the key set of the `queues` map). -/
def keysA (qs : List (String × List String)) : List String :=
  qs.map Prod.fst

/-- Sum of the lengths of all queues in the map. -/
def sumQ (qs : List (String × List String)) : Nat :=
  (qs.map (fun p => p.2.length)).sum

/-- `DomainQueues` from `crawler.rs`: per-host queues, host ordering list,
and the `total` counter. -/
structure DomainQueues where
  queues : List (String × List String)
  order : List String
  total : Nat
deriving Repr, DecidableEq

/-- `DomainQueues::new`. -/
def DomainQueues.new : DomainQueues :=
  { queues := [], order := [], total := 0 }

/-- `DomainQueues::add`: `entry(domain).or_insert_with` pushes the domain onto
`order` and inserts an empty queue when the key is vacant; then the url is
pushed at the back of the queue and `total` is incremented. -/
def DomainQueues.add (s : DomainQueues) (domain url : String) : DomainQueues :=
  match lookupA s.queues domain with
  | some q =>
    { s with queues := updateA s.queues domain (q ++ [url]), total := s.total + 1 }
  | none =>
    { queues := s.queues ++ [(domain, [url])],
      order := s.order ++ [domain],
      total := s.total + 1 }

/-- The body of the `for domain in &self.order` loop of
`DomainQueues::collect_batch`, threading the `(batch, queues, total)` state.
Per host: `take = min(queue.len(), max_per_domain)` urls are popped from the
front of the queue into the batch, decrementing `total` once per pop. -/
def collectGo (maxPer : Nat) :
    List String → List String × List (String × List String) × Nat →
    List String × List (String × List String) × Nat
  | [], st => st
  | d :: ds, (batch, qs, total) =>
    match lookupA qs d with
    | none => collectGo maxPer ds (batch, qs, total)
    | some q =>
      let take := min q.length maxPer
      collectGo maxPer ds (batch ++ q.take take, updateA qs d (q.drop take), total - take)

/-- `DomainQueues::collect_batch`: drain up to `max_per_domain` urls per host
in the current host ordering, then rotate the non-empty ordering list left
by one.  Returns the batch together with the post-state. -/
def DomainQueues.collect_batch (s : DomainQueues) (maxPer : Nat) :
    List String × DomainQueues :=
  let r := collectGo maxPer s.order ([], s.queues, s.total)
  let order' := if s.order.isEmpty then s.order else s.order.drop 1 ++ s.order.take 1
  (r.1, { queues := r.2.1, order := order', total := r.2.2 })

/-- States reachable from `DomainQueues::new` by `add` and `collect_batch`. -/
inductive Reachable : DomainQueues → Prop
  | base : Reachable DomainQueues.new
  | add {s} (domain url : String) : Reachable s → Reachable (s.add domain url)
  | collect {s} (maxPer : Nat) : Reachable s → Reachable (s.collect_batch maxPer).2

/-- Well-formedness of a scheduler state: unique map keys, duplicate-free
ordering list, the ordering list and the key set contain the same hosts, and
`total` equals the sum of the queue lengths. -/
def DomainQueues.WF (s : DomainQueues) : Prop :=
  (keysA s.queues).Nodup ∧ s.order.Nodup ∧
    (∀ d, d ∈ s.order ↔ d ∈ keysA s.queues) ∧ s.total = sumQ s.queues

theorem lookupA_eq_none_iff (qs : List (String × List String)) (d : String) :
    lookupA qs d = none ↔ d ∉ keysA qs := by
  induction qs with
  | nil => simp [lookupA, keysA]
  | cons p rest ih =>
    obtain ⟨k, v⟩ := p
    by_cases hk : k = d
    · subst hk
      simp [lookupA, keysA]
    · simp [lookupA, keysA, hk, ih, Ne.symm hk]

theorem keysA_updateA (qs : List (String × List String)) (d : String) (q : List String) :
    keysA (updateA qs d q) = keysA qs := by
  induction qs with
  | nil => rfl
  | cons p rest ih =>
    obtain ⟨k, v⟩ := p
    by_cases hk : k = d
    · simp [updateA, keysA, hk]
    · simp only [updateA, if_neg hk, keysA, List.map_cons]
      exact congrArg (List.cons k) ih

theorem lookupA_updateA_self (qs : List (String × List String)) (d : String)
    (q : List String) (h : d ∈ keysA qs) : lookupA (updateA qs d q) d = some q := by
  induction qs with
  | nil => simp [keysA] at h
  | cons p rest ih =>
    obtain ⟨k, v⟩ := p
    by_cases hk : k = d
    · simp [updateA, lookupA, hk]
    · have h' : d ∈ keysA rest := by
        simp [keysA] at h ⊢
        rcases h with h | h
        · exact absurd h.symm hk
        · exact h
      simp [updateA, lookupA, hk, ih h']

theorem lookupA_updateA_ne (qs : List (String × List String)) (d d' : String)
    (q : List String) (h : d' ≠ d) : lookupA (updateA qs d q) d' = lookupA qs d' := by
  induction qs with
  | nil => rfl
  | cons p rest ih =>
    obtain ⟨k, v⟩ := p
    by_cases hk : k = d
    · subst hk
      simp [updateA, lookupA, Ne.symm h]
    · by_cases hk' : k = d'
      · simp [updateA, lookupA, hk, hk', h]
      · simp [updateA, lookupA, hk, hk', ih]

theorem lookupA_isSome_of_mem (qs : List (String × List String)) (d : String)
    (h : d ∈ keysA qs) : ∃ q, lookupA qs d = some q := by
  rcases hq : lookupA qs d with _ | q
  · exact absurd ((lookupA_eq_none_iff qs d).mp hq) (not_not_intro h)
  · exact ⟨q, rfl⟩

theorem sumQ_append (qs qs' : List (String × List String)) :
    sumQ (qs ++ qs') = sumQ qs + sumQ qs' := by
  simp [sumQ]

theorem sumQ_updateA (qs : List (String × List String)) (d : String)
    (q0 q : List String) (h : lookupA qs d = some q0) :
    sumQ (updateA qs d q) + q0.length = sumQ qs + q.length := by
  induction qs with
  | nil => simp [lookupA] at h
  | cons p rest ih =>
    obtain ⟨k, v⟩ := p
    by_cases hk : k = d
    · rw [lookupA, if_pos hk] at h
      cases h
      simp only [updateA, if_pos hk, sumQ, List.map_cons, List.sum_cons]
      omega
    · rw [lookupA, if_neg hk] at h
      have hrec := ih h
      simp only [updateA, if_neg hk, sumQ, List.map_cons, List.sum_cons] at hrec ⊢
      omega

theorem length_le_sumQ (qs : List (String × List String)) (d : String)
    (q : List String) (h : lookupA qs d = some q) : q.length ≤ sumQ qs := by
  induction qs with
  | nil => simp [lookupA] at h
  | cons p rest ih =>
    obtain ⟨k, v⟩ := p
    by_cases hk : k = d
    · rw [lookupA, if_pos hk] at h
      cases h
      simp only [sumQ, List.map_cons, List.sum_cons]
      omega
    · rw [lookupA, if_neg hk] at h
      have hrec := ih h
      simp only [sumQ, List.map_cons, List.sum_cons] at hrec ⊢
      omega

theorem take_min_self (q : List String) (m : Nat) :
    q.take (min q.length m) = q.take m := by
  rcases le_total q.length m with h | h
  · rw [min_eq_left h, List.take_length, List.take_of_length_le h]
  · rw [min_eq_right h]

theorem drop_min_self (q : List String) (m : Nat) :
    q.drop (min q.length m) = q.drop m := by
  rcases le_total q.length m with h | h
  · rw [min_eq_left h, List.drop_length, Eq.comm, List.drop_eq_nil_of_le h]
  · rw [min_eq_right h]

/-- Invariant of the `collect_batch` loop: map keys are preserved, the running
`total` tracks the sum of queue lengths, and urls are only moved from the
queues into the batch. -/
theorem collectGo_inv (maxPer : Nat) (ds : List String) :
    ∀ (batch : List String) (qs : List (String × List String)) (total : Nat),
    total = sumQ qs →
    keysA (collectGo maxPer ds (batch, qs, total)).2.1 = keysA qs ∧
    (collectGo maxPer ds (batch, qs, total)).2.2
      = sumQ (collectGo maxPer ds (batch, qs, total)).2.1 ∧
    (collectGo maxPer ds (batch, qs, total)).2.2
        + (collectGo maxPer ds (batch, qs, total)).1.length
      = total + batch.length := by
  induction ds with
  | nil =>
    intro batch qs total ht
    simpa [collectGo] using ht
  | cons d ds ih =>
    intro batch qs total ht
    rcases hq : lookupA qs d with _ | q
    · simp only [collectGo, hq]
      exact ih batch qs total ht
    · have hqle : q.length ≤ sumQ qs := length_le_sumQ qs d q hq
      have htle : min q.length maxPer ≤ q.length := min_le_left _ _
      have hsum' : sumQ (updateA qs d (q.drop (min q.length maxPer))) + q.length
          = sumQ qs + (q.drop (min q.length maxPer)).length :=
        sumQ_updateA qs d q (q.drop (min q.length maxPer)) hq
      have hdl : (q.drop (min q.length maxPer)).length = q.length - min q.length maxPer := by
        simp
      have htot' : total - min q.length maxPer
          = sumQ (updateA qs d (q.drop (min q.length maxPer))) := by omega
      obtain ⟨hk, hs, hb⟩ := ih (batch ++ q.take (min q.length maxPer))
        (updateA qs d (q.drop (min q.length maxPer))) (total - min q.length maxPer) htot'
      simp only [collectGo, hq]
      refine ⟨by rw [hk, keysA_updateA], hs, ?_⟩
      rw [hb]
      have hlt : (q.take (min q.length maxPer)).length = min q.length maxPer := by
        rw [List.length_take]
        omega
      simp only [List.length_append, hlt]
      omega

theorem rotate1_perm (l : List String) : (l.drop 1 ++ l.take 1).Perm l := by
  calc (l.drop 1 ++ l.take 1).Perm (l.take 1 ++ l.drop 1) := List.perm_append_comm
    _ = l := List.take_append_drop 1 l

theorem wf_new : DomainQueues.new.WF := by
  refine ⟨List.nodup_nil, List.nodup_nil, ?_, rfl⟩
  intro d
  simp [DomainQueues.new, keysA]

theorem wf_add (s : DomainQueues) (hs : s.WF) (domain url : String) :
    (s.add domain url).WF := by
  obtain ⟨hkn, hon, hiff, htot⟩ := hs
  rcases hq : lookupA s.queues domain with _ | q
  · have hnotin : domain ∉ keysA s.queues := (lookupA_eq_none_iff _ _).mp hq
    have hnotin' : domain ∉ s.order := fun h => hnotin ((hiff domain).mp h)
    refine ⟨?_, ?_, ?_, ?_⟩
    · simp only [DomainQueues.add, hq, keysA, List.map_append, List.map_cons, List.map_nil]
      rw [show List.map Prod.fst s.queues = keysA s.queues from rfl]
      exact List.Nodup.append hkn (List.nodup_singleton domain)
        (by simpa using fun h => hnotin h)
    · simp only [DomainQueues.add, hq]
      exact List.Nodup.append hon (List.nodup_singleton domain)
        (by simpa using fun h => hnotin' h)
    · intro d
      simp only [DomainQueues.add, hq, keysA, List.map_append, List.mem_append]
      constructor
      · rintro (h | h)
        · exact Or.inl ((hiff d).mp h)
        · exact Or.inr (by simpa using h)
      · rintro (h | h)
        · exact Or.inl ((hiff d).mpr h)
        · exact Or.inr (by simpa using h)
    · have hsa : sumQ (s.queues ++ [(domain, [url])]) = sumQ s.queues + 1 := by
        rw [sumQ_append]
        simp [sumQ]
      simp only [DomainQueues.add, hq]
      rw [hsa]
      omega
  · refine ⟨?_, ?_, ?_, ?_⟩
    · simp only [DomainQueues.add, hq]
      rw [keysA_updateA]
      exact hkn
    · simp only [DomainQueues.add, hq]
      exact hon
    · intro d
      simp only [DomainQueues.add, hq]
      rw [keysA_updateA]
      exact hiff d
    · simp only [DomainQueues.add, hq]
      have := sumQ_updateA s.queues domain q (q ++ [url]) hq
      simp only [List.length_append, List.length_cons, List.length_nil] at this
      omega

theorem collect_order_perm (s : DomainQueues) (maxPer : Nat) :
    ((s.collect_batch maxPer).2.order).Perm s.order := by
  simp only [DomainQueues.collect_batch]
  rcases ho : s.order with _ | ⟨a, l⟩
  · simp
  · simp only [List.isEmpty_cons, Bool.false_eq_true, if_false]
    exact rotate1_perm (a :: l)

theorem wf_collect (s : DomainQueues) (hs : s.WF) (maxPer : Nat) :
    (s.collect_batch maxPer).2.WF := by
  obtain ⟨hkn, hon, hiff, htot⟩ := hs
  obtain ⟨hk, hsum, hbal⟩ := collectGo_inv maxPer s.order [] s.queues s.total htot
  have hperm : ((s.collect_batch maxPer).2.order).Perm s.order :=
    collect_order_perm s maxPer
  refine ⟨?_, ?_, ?_, ?_⟩
  · simpa [DomainQueues.collect_batch, hk] using hkn
  · exact hperm.symm.nodup hon
  · intro d
    rw [hperm.mem_iff]
    simpa [DomainQueues.collect_batch, hk] using hiff d
  · simpa [DomainQueues.collect_batch] using hsum

theorem reachable_wf (s : DomainQueues) (h : Reachable s) : s.WF := by
  induction h with
  | base => exact wf_new
  | add domain url _ ih => exact wf_add _ ih domain url
  | collect maxPer _ ih => exact wf_collect _ ih maxPer

/-- With a duplicate-free host ordering, the loop appends, host by host in
ordering order, the first `maxPer` urls of each host's queue (all relative to
the pre-loop map). -/
theorem collectGo_batch (maxPer : Nat) (ds : List String) :
    ∀ (batch : List String) (qs : List (String × List String)) (total : Nat), ds.Nodup →
    (collectGo maxPer ds (batch, qs, total)).1
      = batch ++ ds.flatMap (fun d => ((lookupA qs d).getD []).take maxPer) := by
  induction ds with
  | nil =>
    intro batch qs total _
    simp [collectGo]
  | cons d ds ih =>
    intro batch qs total hnd
    have hd : d ∉ ds := (List.nodup_cons.mp hnd).1
    have hds : ds.Nodup := (List.nodup_cons.mp hnd).2
    rcases hq : lookupA qs d with _ | q
    · simp only [collectGo, hq]
      rw [ih batch qs total hds]
      simp [hq]
    · simp only [collectGo, hq]
      rw [ih _ _ _ hds]
      have hcong : ds.flatMap
            (fun d' => ((lookupA (updateA qs d (q.drop (min q.length maxPer))) d').getD
              []).take maxPer)
          = ds.flatMap (fun d' => ((lookupA qs d').getD []).take maxPer) :=
        List.flatMap_congr (fun d' hd' => by
          rw [lookupA_updateA_ne qs d d' _ (fun he => hd (he ▸ hd'))])
      rw [hcong, List.flatMap_cons]
      simp [hq, take_min_self]

/-- With a duplicate-free host ordering, the post-loop queue of a host in the
ordering is its pre-loop queue with the first `maxPer` urls dropped; other
queues are untouched. -/
theorem collectGo_lookup (maxPer : Nat) (ds : List String) :
    ∀ (batch : List String) (qs : List (String × List String)) (total : Nat), ds.Nodup →
    ∀ d, lookupA (collectGo maxPer ds (batch, qs, total)).2.1 d
      = if d ∈ ds then (lookupA qs d).map (fun q => q.drop maxPer) else lookupA qs d := by
  induction ds with
  | nil =>
    intro batch qs total _ d
    simp [collectGo]
  | cons d0 ds ih =>
    intro batch qs total hnd d
    have hd0 : d0 ∉ ds := (List.nodup_cons.mp hnd).1
    have hds : ds.Nodup := (List.nodup_cons.mp hnd).2
    rcases hq : lookupA qs d0 with _ | q
    · simp only [collectGo, hq]
      rw [ih batch qs total hds d]
      by_cases hdd : d = d0
      · subst hdd
        simp [hd0, hq]
      · simp [hdd]
    · simp only [collectGo, hq]
      rw [ih _ _ _ hds d]
      by_cases hdd : d = d0
      · subst hdd
        have hmem : d ∈ keysA qs := by
          by_contra hc
          rw [(lookupA_eq_none_iff qs d).mpr hc] at hq
          exact Option.noConfusion hq
        simp [hd0, lookupA_updateA_self _ _ _ hmem, hq, drop_min_self]
      · rw [lookupA_updateA_ne qs d0 d _ hdd]
        by_cases hmem : d ∈ ds
        · simp [hmem, hdd]
        · simp [hmem, hdd]

/-- The batch, with each url tagged by the host whose queue it was popped
from: block of host `d` = first `maxPer` urls of `d`'s queue, blocks in the
current host ordering. -/
def taggedBatch (s : DomainQueues) (maxPer : Nat) : List (String × String) :=
  s.order.flatMap
    (fun d => (((lookupA s.queues d).getD []).take maxPer).map (fun u => (d, u)))

theorem tagged_fst_mem (ds : List String) (qs : List (String × List String))
    (maxPer : Nat) (p : String × String)
    (hp : p ∈ ds.flatMap
      (fun d => (((lookupA qs d).getD []).take maxPer).map (fun u => (d, u)))) :
    p.1 ∈ ds := by
  rw [List.mem_flatMap] at hp
  obtain ⟨d, hd, hm⟩ := hp
  rw [List.mem_map] at hm
  obtain ⟨u, _, rfl⟩ := hm
  exact hd

theorem tagged_filter_nil (ds : List String) (qs : List (String × List String))
    (maxPer : Nat) (d : String) (hd : d ∉ ds) :
    (ds.flatMap
        (fun d' => (((lookupA qs d').getD []).take maxPer).map (fun u => (d', u)))).filter
      (fun p => p.1 = d) = [] := by
  rw [List.filter_eq_nil_iff]
  intro p hp
  have hmem := tagged_fst_mem ds qs maxPer p hp
  simp only [decide_eq_true_eq]
  exact fun he => hd (he ▸ hmem)

/-- Each host contributes at most `maxPer` entries to the tagged batch. -/
theorem tagged_filter_len (maxPer : Nat) (qs : List (String × List String)) (d : String) :
    ∀ ds : List String, ds.Nodup →
    ((ds.flatMap
        (fun d' => (((lookupA qs d').getD []).take maxPer).map (fun u => (d', u)))).filter
      (fun p => p.1 = d)).length ≤ maxPer := by
  intro ds
  induction ds with
  | nil =>
    intro _
    simp
  | cons d0 ds ih =>
    intro hnd
    have hd0 : d0 ∉ ds := (List.nodup_cons.mp hnd).1
    have hds : ds.Nodup := (List.nodup_cons.mp hnd).2
    rw [List.flatMap_cons, List.filter_append, List.length_append]
    by_cases hdd : d = d0
    · subst hdd
      rw [tagged_filter_nil ds qs maxPer d hd0]
      have hlen : ((((lookupA qs d).getD []).take maxPer).map
            (fun u => (d, u))).filter (fun p => p.1 = d)
          = (((lookupA qs d).getD []).take maxPer).map (fun u => (d, u)) := by
        rw [List.filter_eq_self]
        intro p hp
        rw [List.mem_map] at hp
        obtain ⟨u, _, rfl⟩ := hp
        simp
      rw [hlen]
      have := List.length_take_le maxPer ((lookupA qs d).getD [])
      simp only [List.length_map, List.length_nil]
      omega
    · have hblock : ((((lookupA qs d0).getD []).take maxPer).map
            (fun u => (d0, u))).filter (fun p => p.1 = d) = [] := by
        rw [List.filter_eq_nil_iff]
        intro p hp
        rw [List.mem_map] at hp
        obtain ⟨u, _, rfl⟩ := hp
        simp only [decide_eq_true_eq]
        exact fun he => hdd he.symm
      rw [hblock]
      simpa using ih hds

/-- C1: in every reachable scheduler state, after `add` and after
`collect_batch` the `total` field equals the sum of the lengths of all
queues, and after `collect_batch` both equal the pre-call `total` minus the
length of the returned batch. -/
theorem total_eq_sum_after_add_and_collect (s : DomainQueues) (h : Reachable s)
    (domain url : String) (maxPer : Nat) :
    (s.add domain url).total = sumQ (s.add domain url).queues
    ∧ (s.collect_batch maxPer).2.total = sumQ (s.collect_batch maxPer).2.queues
    ∧ (s.collect_batch maxPer).2.total + ((s.collect_batch maxPer).1).length = s.total
    ∧ (s.collect_batch maxPer).2.total = s.total - ((s.collect_batch maxPer).1).length := by
  have hwf := reachable_wf s h
  have hbal := (collectGo_inv maxPer s.order [] s.queues s.total hwf.2.2.2).2.2
  have hb : (s.collect_batch maxPer).2.total + ((s.collect_batch maxPer).1).length
      = s.total := by
    simpa [DomainQueues.collect_batch] using hbal
  exact ⟨(wf_add s hwf domain url).2.2.2, (wf_collect s hwf maxPer).2.2.2, hb, by omega⟩

/-- Witness for C1 at a concrete reachable state. -/
theorem total_eq_sum_after_add_and_collect_witness :
    ((DomainQueues.new.add "a" "u").add "b" "v").total
        = sumQ ((DomainQueues.new.add "a" "u").add "b" "v").queues
    ∧ (((DomainQueues.new.add "a" "u").collect_batch 5).2.total
        = sumQ ((DomainQueues.new.add "a" "u").collect_batch 5).2.queues
      ∧ ((DomainQueues.new.add "a" "u").collect_batch 5).2.total
          + (((DomainQueues.new.add "a" "u").collect_batch 5).1).length
        = (DomainQueues.new.add "a" "u").total
      ∧ ((DomainQueues.new.add "a" "u").collect_batch 5).2.total
        = (DomainQueues.new.add "a" "u").total
          - (((DomainQueues.new.add "a" "u").collect_batch 5).1).length) :=
  ⟨(total_eq_sum_after_add_and_collect (DomainQueues.new.add "a" "u")
      (Reachable.add "a" "u" Reachable.base) "b" "v" 5).1,
   (total_eq_sum_after_add_and_collect (DomainQueues.new.add "a" "u")
      (Reachable.add "a" "u" Reachable.base) "b" "v" 5).2⟩

/-- C10: in every reachable scheduler state the ordering list is
duplicate-free, its hosts are exactly the keys of the queues map, and
neither `add` nor `collect_batch` ever removes a host from the ordering
list or from the key set. -/
theorem order_keys_invariant (s : DomainQueues) (h : Reachable s) :
    s.order.Nodup
    ∧ (∀ d, d ∈ s.order ↔ d ∈ keysA s.queues)
    ∧ (∀ domain url d, d ∈ s.order → d ∈ (s.add domain url).order)
    ∧ (∀ domain url d, d ∈ keysA s.queues → d ∈ keysA (s.add domain url).queues)
    ∧ (∀ maxPer d, d ∈ s.order → d ∈ (s.collect_batch maxPer).2.order)
    ∧ (∀ maxPer d, d ∈ keysA s.queues → d ∈ keysA (s.collect_batch maxPer).2.queues) := by
  have hwf := reachable_wf s h
  refine ⟨hwf.2.1, hwf.2.2.1, ?_, ?_, ?_, ?_⟩
  · intro domain url d hd
    rcases hq : lookupA s.queues domain with _ | q
    · simp only [DomainQueues.add, hq, List.mem_append]
      exact Or.inl hd
    · simpa [DomainQueues.add, hq] using hd
  · intro domain url d hd
    rcases hq : lookupA s.queues domain with _ | q
    · simp only [DomainQueues.add, hq, keysA, List.map_append, List.mem_append]
      exact Or.inl hd
    · simpa [DomainQueues.add, hq, keysA_updateA] using hd
  · intro maxPer d hd
    exact (collect_order_perm s maxPer).mem_iff.mpr hd
  · intro maxPer d hd
    have hk := (collectGo_inv maxPer s.order [] s.queues s.total hwf.2.2.2).1
    have : keysA (s.collect_batch maxPer).2.queues = keysA s.queues := by
      simpa [DomainQueues.collect_batch] using hk
    rw [this]
    exact hd

/-- Witness for C10 at a concrete reachable state. -/
theorem order_keys_invariant_witness :
    (DomainQueues.new.add "a" "u").order.Nodup
    ∧ ("a" ∈ ((DomainQueues.new.add "a" "u").collect_batch 5).2.order) :=
  ⟨(order_keys_invariant (DomainQueues.new.add "a" "u")
      (Reachable.add "a" "u" Reachable.base)).1,
   (order_keys_invariant (DomainQueues.new.add "a" "u")
      (Reachable.add "a" "u" Reachable.base)).2.2.2.2.1 5 "a" (by decide)⟩

/-- C4: `collect_batch` pops at most `maxPer` urls from the front of each
host's queue, in the current host ordering, preserving host ordering in the
output; afterwards a non-empty ordering list is rotated left by one; and no
host contributes more than `maxPer` entries (in particular, consecutive
entries) to a single batch. -/
theorem collect_batch_shape (s : DomainQueues) (h : Reachable s) (maxPer : Nat) :
    (s.collect_batch maxPer).1
        = s.order.flatMap (fun d => ((lookupA s.queues d).getD []).take maxPer)
    ∧ (s.collect_batch maxPer).1 = (taggedBatch s maxPer).map Prod.snd
    ∧ (∀ d, d ∈ s.order →
        lookupA (s.collect_batch maxPer).2.queues d
          = (lookupA s.queues d).map (fun q => q.drop maxPer))
    ∧ (s.collect_batch maxPer).2.order
        = (if s.order.isEmpty then s.order else s.order.drop 1 ++ s.order.take 1)
    ∧ (∀ d, ((taggedBatch s maxPer).filter (fun p => p.1 = d)).length ≤ maxPer) := by
  have hwf := reachable_wf s h
  have hog : s.order.Nodup := hwf.2.1
  have hbatch : (s.collect_batch maxPer).1
      = s.order.flatMap (fun d => ((lookupA s.queues d).getD []).take maxPer) := by
    have := collectGo_batch maxPer s.order [] s.queues s.total hog
    simpa [DomainQueues.collect_batch] using this
  refine ⟨hbatch, ?_, ?_, rfl, ?_⟩
  · rw [hbatch]
    simp [taggedBatch, List.map_flatMap, List.map_map, Function.comp]
  · intro d hd
    have := collectGo_lookup maxPer s.order [] s.queues s.total hog d
    rw [if_pos hd] at this
    simpa [DomainQueues.collect_batch] using this
  · intro d
    exact tagged_filter_len maxPer s.queues d s.order hog

/-- Witness for C4 at a concrete reachable state. -/
theorem collect_batch_shape_witness :
    ((DomainQueues.new.add "a" "u").collect_batch 5).1
      = (DomainQueues.new.add "a" "u").order.flatMap
          (fun d => ((lookupA (DomainQueues.new.add "a" "u").queues d).getD []).take 5)
    ∧ ((DomainQueues.new.add "a" "u").collect_batch 5).1 = ["u"] :=
  ⟨(collect_batch_shape (DomainQueues.new.add "a" "u")
      (Reachable.add "a" "u" Reachable.base) 5).1,
   by decide⟩

/-! ## Proxy pool: `src/genesis/src/proxy.rs` -/

/-- `ProxyManager` state: the read-only proxy pool plus the round-robin
counter.  Pool entries stay abstract (`α` is the `Proxy` record with its
pre-built HTTP client). -/
structure ProxyManager (α : Type) where
  proxies : List α
  current : Nat

/-- `ProxyManager::get_next_proxy`: `None` on an empty pool (the counter is
untouched); otherwise `current.fetch_add(1)` and the proxy at the old counter
value modulo the pool size.  The atomic fetch-and-add is modelled by its
linearized sequential semantics. -/
def get_next_proxy {α : Type} (pm : ProxyManager α) : Option α × ProxyManager α :=
  if pm.proxies.isEmpty then (none, pm)
  else
    (pm.proxies[pm.current % pm.proxies.length]?,
     { pm with current := pm.current + 1 })

theorem get_next_proxy_step {α : Type} (pm : ProxyManager α) (h : pm.proxies ≠ []) :
    (get_next_proxy pm).2.proxies = pm.proxies
    ∧ (get_next_proxy pm).2.current = pm.current + 1 := by
  obtain ⟨ps, c⟩ := pm
  cases ps with
  | nil => exact absurd rfl h
  | cons a l => exact ⟨rfl, rfl⟩

theorem get_next_proxy_iterate {α : Type} (pm : ProxyManager α)
    (h : pm.proxies ≠ []) (k : Nat) :
    ((fun p => (get_next_proxy p).2)^[k] pm).proxies = pm.proxies
    ∧ ((fun p => (get_next_proxy p).2)^[k] pm).current = pm.current + k := by
  induction k with
  | zero => simp
  | succ n ih =>
    rw [Function.iterate_succ_apply']
    obtain ⟨hp, hc⟩ := ih
    have hne : ((fun p => (get_next_proxy p).2)^[n] pm).proxies ≠ [] := by
      rw [hp]; exact h
    obtain ⟨hp', hc'⟩ := get_next_proxy_step _ hne
    refine ⟨hp'.trans hp, ?_⟩
    rw [hc', hc]
    omega

/-- C7: `get_next_proxy` returns `None` iff the pool is empty; otherwise it
returns the proxy at index `current mod len` and increments the counter, and
iterating calls visits the pool in strict round-robin order with no index
skipped. -/
theorem get_next_proxy_round_robin {α : Type} (pm : ProxyManager α) :
    ((get_next_proxy pm).1 = none ↔ pm.proxies = [])
    ∧ (pm.proxies ≠ [] →
        (get_next_proxy pm).1 = pm.proxies[pm.current % pm.proxies.length]?
        ∧ (get_next_proxy pm).2.current = pm.current + 1
        ∧ (get_next_proxy pm).2.proxies = pm.proxies)
    ∧ (pm.proxies ≠ [] → ∀ k : Nat,
        (get_next_proxy ((fun p => (get_next_proxy p).2)^[k] pm)).1
          = pm.proxies[(pm.current + k) % pm.proxies.length]?) := by
  refine ⟨?_, ?_, ?_⟩
  · constructor
    · intro hn
      by_contra hne
      have hlen : 0 < pm.proxies.length := List.length_pos.mpr hne
      have hidx : pm.current % pm.proxies.length < pm.proxies.length :=
        Nat.mod_lt _ hlen
      have : (get_next_proxy pm).1
          = pm.proxies[pm.current % pm.proxies.length]? := by
        simp [get_next_proxy, List.isEmpty_iff, hne]
      rw [this, List.getElem?_eq_getElem hidx] at hn
      exact Option.noConfusion hn
    · intro he
      simp [get_next_proxy, he]
  · intro hne
    refine ⟨by simp [get_next_proxy, List.isEmpty_iff, hne],
      (get_next_proxy_step pm hne).2, (get_next_proxy_step pm hne).1⟩
  · intro hne k
    obtain ⟨hp, hc⟩ := get_next_proxy_iterate pm hne k
    have hst : ((fun p => (get_next_proxy p).2)^[k] pm)
        = ProxyManager.mk pm.proxies (pm.current + k) := by
      rcases hiter : ((fun p => (get_next_proxy p).2)^[k] pm) with ⟨ps, c⟩
      rw [hiter] at hp hc
      rw [show ps = pm.proxies from hp, show c = pm.current + k from hc]
    rw [hst]
    simp [get_next_proxy, List.isEmpty_iff, hne]

/-- Witness for C7 on a concrete three-entry pool. -/
theorem get_next_proxy_round_robin_witness :
    (get_next_proxy (ProxyManager.mk ["a", "b", "c"] 4)).1 = some "b"
    ∧ (get_next_proxy
        ((fun p => (get_next_proxy p).2)^[3] (ProxyManager.mk ["a", "b", "c"] 4))).1
      = some "b" :=
  ⟨(((get_next_proxy_round_robin (ProxyManager.mk ["a", "b", "c"] 4)).2.1
      (by decide)).1).trans (by decide),
   ((get_next_proxy_round_robin (ProxyManager.mk ["a", "b", "c"] 4)).2.2
      (by decide) 3).trans (by decide)⟩

/-! ## Fetch path of `process_page`: `src/genesis/src/main.rs` -/

def MAX_TUNNEL_RETRIES : Nat := 2

/-- The crawl metrics counters (`Metrics` in `main.rs`; the inactivity clock
is not a counter and is omitted). -/
structure Metrics where
  total : Nat
  tunnel : Nat
  proxy : Nat
  failed : Nat
  success : Nat
deriving Repr, DecidableEq

/-- `try_tunnel_request`, abstracted over the network: `res` is the outcome
of this tunnel attempt (`some body` on success, `none` on any tunnel
failure).  The function increments `total` and `tunnel` once per call,
before the request is made. -/
def try_tunnel_request (res : Option String) (m : Metrics) : Option String × Metrics :=
  (res, { m with total := m.total + 1, tunnel := m.tunnel + 1 })

/-- The tunnel retry loop of `process_page`: on failure `tunnel_retries` is
incremented and the loop continues while `tunnel_retries < MAX_TUNNEL_RETRIES`.
`oracle n` is the outcome of the tunnel attempt made when `tunnel_retries = n`. -/
def tunnelLoop (oracle : Nat → Option String) (tunnel_retries : Nat) (m : Metrics) :
    Option String × Metrics :=
  match try_tunnel_request (oracle tunnel_retries) m with
  | (some text, m') => (some text, m')
  | (none, m') =>
    if h : tunnel_retries + 1 < MAX_TUNNEL_RETRIES then
      tunnelLoop oracle (tunnel_retries + 1) m'
    else (none, m')
termination_by MAX_TUNNEL_RETRIES - tunnel_retries
decreasing_by omega

/-- Proxy fallback request outcomes as distinguished by `process_page`. -/
inductive ProxyOutcome where
  | ok (body : String)
  | forbidden
  | transportErr
deriving Repr, DecidableEq

/-- The fetch phase of `process_page`: the tunnel loop starting at
`tunnel_retries = 0`; when the tunnel never succeeds, `proxy` is incremented
once, then the proxy fallback runs (`proxyAvail = false` models
`get_next_proxy()` returning `None`); a failed fallback increments `failed`. -/
def process_page_fetch (oracle : Nat → Option String) (proxyAvail : Bool)
    (res : ProxyOutcome) (m : Metrics) : Option String × Metrics :=
  match tunnelLoop oracle 0 m with
  | (some text, m') => (some text, m')
  | (none, m') =>
    let m1 := { m' with proxy := m'.proxy + 1 }
    if proxyAvail then
      match res with
      | .ok body => (some body, m1)
      | .forbidden => (none, { m1 with failed := m1.failed + 1 })
      | .transportErr => (none, { m1 with failed := m1.failed + 1 })
    else (none, m1)

/-- C2: the tunnel is tried at most `MAX_TUNNEL_RETRIES = 2` times per URL,
`tunnel` is incremented once per attempt, and `proxy` is incremented exactly
once, precisely for the URLs whose every tunnel attempt fails; such a URL
contributes exactly 2 to `tunnel` and 1 to `proxy`. -/
theorem process_page_retry_accounting (oracle : Nat → Option String)
    (proxyAvail : Bool) (res : ProxyOutcome) (m : Metrics) :
    ((process_page_fetch oracle proxyAvail res m).2.tunnel
        = m.tunnel + (if (oracle 0).isSome then 1 else 2))
    ∧ (process_page_fetch oracle proxyAvail res m).2.tunnel - m.tunnel
        ≤ MAX_TUNNEL_RETRIES
    ∧ ((process_page_fetch oracle proxyAvail res m).2.proxy
        = m.proxy + (if oracle 0 = none ∧ oracle 1 = none then 1 else 0))
    ∧ (oracle 0 = none ∧ oracle 1 = none →
        (process_page_fetch oracle proxyAvail res m).2.tunnel = m.tunnel + 2
        ∧ (process_page_fetch oracle proxyAvail res m).2.proxy = m.proxy + 1) := by
  rcases h0 : oracle 0 with _ | t0
  · rcases h1 : oracle 1 with _ | t1
    · have hloop : tunnelLoop oracle 0 m
          = (none, { m with total := m.total + 2, tunnel := m.tunnel + 2 }) := by
        rw [tunnelLoop]
        simp only [try_tunnel_request, h0, MAX_TUNNEL_RETRIES]
        rw [tunnelLoop]
        simp [try_tunnel_request, h1, MAX_TUNNEL_RETRIES]
      cases proxyAvail
      · simp [process_page_fetch, hloop, h0, h1, MAX_TUNNEL_RETRIES]
      · cases res
        all_goals simp [process_page_fetch, hloop, h0, h1, MAX_TUNNEL_RETRIES]
    · have hloop : tunnelLoop oracle 0 m
          = (some t1, { m with total := m.total + 2, tunnel := m.tunnel + 2 }) := by
        rw [tunnelLoop]
        simp only [try_tunnel_request, h0, MAX_TUNNEL_RETRIES]
        rw [tunnelLoop]
        simp [try_tunnel_request, h1, MAX_TUNNEL_RETRIES]
      simp [process_page_fetch, hloop, h0, h1, MAX_TUNNEL_RETRIES]
  · have hloop : tunnelLoop oracle 0 m
        = (some t0, { m with total := m.total + 1, tunnel := m.tunnel + 1 }) := by
      rw [tunnelLoop]
      simp [try_tunnel_request, h0]
    simp [process_page_fetch, hloop, h0, MAX_TUNNEL_RETRIES]

/-- Witness for C2: a URL whose both tunnel attempts fail contributes
exactly 2 to `tunnel` and 1 to `proxy`. -/
theorem process_page_retry_accounting_witness :
    (process_page_fetch (fun _ => none) true ProxyOutcome.transportErr
        (Metrics.mk 0 0 0 0 0)).2.tunnel = 0 + 2
    ∧ (process_page_fetch (fun _ => none) true ProxyOutcome.transportErr
        (Metrics.mk 0 0 0 0 0)).2.proxy = 0 + 1 :=
  (process_page_retry_accounting (fun _ => none) true ProxyOutcome.transportErr
      (Metrics.mk 0 0 0 0 0)).2.2.2 ⟨rfl, rfl⟩

/-! ## Tunnel failure classification: `src/genesis/src/main.rs` -/

/-- Substring containment, mirroring Rust `str::contains` for string
patterns. -/
def strContains (s pat : String) : Bool := decide (pat.toList <:+: s.toList)

/-- `is_cloudflare_error` from `main.rs`. -/
def is_cloudflare_error (text : String) : Bool :=
  strContains text "Cloudflare" && strContains text "Worker threw exception"

/-- Classification of a received tunnel HTTP response `(status, text)` inside
`try_tunnel_request`: 403 status or a `403 Forbidden` body, then the
Cloudflare worker-exception pattern, are failures; anything else succeeds
with the body text. -/
def classify_tunnel_response (status : Nat) (text : String) : Except String String :=
  if status == 403 || strContains text "403 Forbidden" then
    Except.error "403 Forbidden"
  else if is_cloudflare_error text then
    Except.error "Cloudflare error in response content"
  else
    Except.ok text

/-- C6: a received tunnel response is classified as a failure iff the status
is 403, or the body contains `403 Forbidden`, or the body contains both
`Cloudflare` and `Worker threw exception`; otherwise the body text is
returned as a success. -/
theorem classify_tunnel_response_iff (status : Nat) (text : String) :
    ((∃ e, classify_tunnel_response status text = Except.error e)
      ↔ (status = 403 ∨ strContains text "403 Forbidden" = true
          ∨ (strContains text "Cloudflare" = true
              ∧ strContains text "Worker threw exception" = true)))
    ∧ (¬(status = 403 ∨ strContains text "403 Forbidden" = true
          ∨ (strContains text "Cloudflare" = true
              ∧ strContains text "Worker threw exception" = true)) →
        classify_tunnel_response status text = Except.ok text) := by
  unfold classify_tunnel_response
  by_cases h1 : status == 403 || strContains text "403 Forbidden"
  · rw [if_pos h1]
    simp only [Bool.or_eq_true, beq_iff_eq] at h1
    constructor
    · constructor
      · intro _
        tauto
      · intro _
        exact ⟨"403 Forbidden", rfl⟩
    · intro hc
      tauto
  · rw [if_neg h1]
    simp only [Bool.or_eq_true, beq_iff_eq, not_or] at h1
    by_cases h2 : is_cloudflare_error text
    · rw [if_pos h2]
      simp only [is_cloudflare_error, Bool.and_eq_true] at h2
      constructor
      · constructor
        · intro _
          tauto
        · intro _
          exact ⟨"Cloudflare error in response content", rfl⟩
      · intro hc
        tauto
    · rw [if_neg h2]
      simp only [is_cloudflare_error, Bool.and_eq_true] at h2
      constructor
      · constructor
        · rintro ⟨e, he⟩
          exact Except.noConfusion he
        · intro hc
          tauto
      · intro _
        rfl

/-- Witness for C6: a plain 200 response with an innocuous body is a
success. -/
theorem classify_tunnel_response_iff_witness :
    classify_tunnel_response 200 "hello world" = Except.ok "hello world" :=
  (classify_tunnel_response_iff 200 "hello world").2 (by decide)

/-! ## Request fingerprinting: `src/genesis/src/fingerprint.rs`

The pseudo-random stream of `StdRng` is abstracted by `RngOps`: states are
natural numbers, `seedFromU64` maps a seed to an initial state, and each draw
returns a value together with the advanced state.  `randomBool p` models
`rng.random_bool(p)` (a Bernoulli(`p`) draw; the spec's `bernoulli(0.9)` is
the complement of `random_bool(0.1)`), and `chooseWeighted` models
`choose_weighted` over a `(string, weight)` table. -/

structure RngOps where
  seedFromU64 : Nat → Nat
  randomBool : Rat → Nat → Bool × Nat
  chooseWeighted : List (String × Rat) → Nat → (String × Rat) × Nat

def DESKTOP_USER_AGENTS : List (String × Rat) := [
  ("Mozilla/5.0 (Windows NT 10.0; Win64; x64) AppleWebKit/537.36 (KHTML, like Gecko) Chrome/132.0.0.0 Safari/537.3", 40.98),
  ("Mozilla/5.0 (Macintosh; Intel Mac OS X 10_15_7) AppleWebKit/605.1.15 (KHTML, like Gecko) Version/18.1.1 Safari/605.1.1", 12.7),
  ("Mozilla/5.0 (Macintosh; Intel Mac OS X 10_15_7) AppleWebKit/605.1.15 (KHTML, like Gecko) Version/17.0 Safari/605.1.1", 12.43),
  ("Mozilla/5.0 (Windows NT 10.0; Win64; x64) AppleWebKit/537.36 (KHTML, like Gecko) Chrome/132.0.0.0 Safari/537.36 Edg/132.0.0.", 8.74),
  ("Mozilla/5.0 (Windows NT 10.0; Win64; x64) AppleWebKit/537.36 (KHTML, like Gecko) Chrome/128.0.0.0 Safari/537.36 Edg/128.0.0.", 6.01),
  ("Mozilla/5.0 (Windows NT 10.0; Win64; x64; rv:134.0) Gecko/20100101 Firefox/134.", 6.01),
  ("Mozilla/5.0 (Windows NT 10.0; Win64; x64) AppleWebKit/537.36 (KHTML, like Gecko) Chrome/131.0.0.0 Safari/537.36 Edg/131.0.0.", 2.73),
  ("Mozilla/5.0 (Windows NT 10.0; Win64; x64; rv:128.0) Gecko/20100101 Firefox/128.", 2.19),
  ("Mozilla/5.0 (Windows NT 6.1; Win64; x64; rv:109.0) Gecko/20100101 Firefox/115.", 2.19),
  ("Mozilla/5.0 (Windows NT 6.1; rv:109.0) Gecko/20100101 Firefox/115.", 1.09),
  ("Mozilla/5.0 (Windows NT 10.0; Win64; x64) AppleWebKit/537.36 (KHTML, like Gecko) Chrome/131.0.0.0 Safari/537.36 OPR/116.0.0.", 1.09),
  ("Mozilla/5.0 (Windows NT 10.0; Win64; x64) AppleWebKit/537.36 (KHTML, like Gecko) Chrome/125.0.0.0 Safari/537.36 Edg/125.0.0.", 1.09),
  ("Mozilla/5.0 (Windows NT 10.0; Win64; x64) AppleWebKit/537.36 (KHTML, like Gecko) Chrome/109.0.0.0 Safari/537.3", 1.09),
  ("Mozilla/5.0 (Windows NT 6.1) AppleWebKit/537.36 (KHTML, like Gecko) Chrome/109.0.0.0 Safari/537.36 OPR/95.0.0.", 0.55),
  ("Mozilla/5.0 (Windows NT 10.0; Win64; x64; rv:131.0) Gecko/20100101 Firefox/131.", 0.55),
  ("Mozilla/5.0 (Windows NT 10.0; Win64; x64) AppleWebKit/537.36 (KHTML, like Gecko) Chrome/131.0.0.0 Safari/537.3", 0.55)]

def MOBILE_USER_AGENTS : List (String × Rat) := [
  ("Mozilla/5.0 (Linux; Android 10; K) AppleWebKit/537.36 (KHTML, like Gecko) Chrome/132.0.0.0 Mobile Safari/537.3", 44.9),
  ("Mozilla/5.0 (iPhone; CPU iPhone OS 18_1_1 like Mac OS X) AppleWebKit/605.1.15 (KHTML, like Gecko) Version/18.1.1 Mobile/15E148 Safari/604.", 15.31),
  ("Mozilla/5.0 (Linux; Android 10; K) AppleWebKit/537.36 (KHTML, like Gecko) SamsungBrowser/27.0 Chrome/125.0.0.0 Mobile Safari/537.3", 10.2),
  ("Mozilla/5.0 (iPhone; CPU iPhone OS 18_1_1 like Mac OS X) AppleWebKit/605.1.15 (KHTML, like Gecko) GSA/353.1.720279278 Mobile/15E148 Safari/604.", 4.08),
  ("Mozilla/5.0 (Linux; Android 10; moto e(6i) Build/QOH30.280-26) AppleWebKit/537.36 (KHTML, like Gecko) Chrome/132.0.6834.163 Mobile Safari/537.3", 4.08),
  ("Mozilla/5.0 (iPhone; CPU iPhone OS 17_6_1 like Mac OS X) AppleWebKit/605.1.15 (KHTML, like Gecko) CriOS/132.0.6834.100 Mobile/15E148 Safari/604.", 3.06),
  ("Mozilla/5.0 (iPhone; CPU iPhone OS 18_2_1 like Mac OS X) AppleWebKit/605.1.15 (KHTML, like Gecko) CriOS/132.0.6834.100 Mobile/15E148 Safari/604.", 2.04),
  ("Mozilla/5.0 (iPhone; CPU iPhone OS 18_2_1 like Mac OS X) AppleWebKit/605.1.15 (KHTML, like Gecko) Version/18.2 Mobile/15E148 Safari/604.", 2.04),
  ("Mozilla/5.0 (iPhone; CPU iPhone OS 18_3_0 like Mac OS X) AppleWebKit/605.1.15 (KHTML, like Gecko) CriOS/132.0.6834.100 Mobile/15E148 Safari/604.", 2.04),
  ("Mozilla/5.0 (iPhone; CPU iPhone OS 18_1 like Mac OS X) AppleWebKit/605.1.15 (KHTML, like Gecko) Version/18.1 Mobile/15E148 Safari/604.", 2.04),
  ("Mozilla/5.0 (iPhone; CPU iPhone OS 17_6_1 like Mac OS X) AppleWebKit/605.1.15 (KHTML, like Gecko) Version/17.6 Mobile/15E148 Safari/604.", 2.04),
  ("Mozilla/5.0 (Linux; Android 10; K) AppleWebKit/537.36 (KHTML, like Gecko) Chrome/111.0.0.0 Mobile Safari/537.3", 2.04),
  ("Mozilla/5.0 (iPhone; CPU iPhone OS 16_7_7 like Mac OS X) AppleWebKit/605.1.15 (KHTML, like Gecko) Version/16.6 Mobile/15E148 Safari/604.", 1.02),
  ("Mozilla/5.0 (iPhone; CPU iPhone OS 17_5_1 like Mac OS X) AppleWebKit/605.1.15 (KHTML, like Gecko) Version/17.5 Mobile/15E148 Safari/604.", 1.02),
  ("Mozilla/5.0 (iPhone; CPU iPhone OS 18_1_1 like Mac OS X) AppleWebKit/605.1.15 (KHTML, like Gecko) CriOS/132.0.6834.100 Mobile/15E148 Safari/604.", 1.02),
  ("Mozilla/5.0 (iPhone; CPU iPhone OS 18_2_1 like Mac OS X) AppleWebKit/605.1.15 (KHTML, like Gecko) CriOS/133.0.6943.33 Mobile/15E148 Safari/604.", 1.02),
  ("Mozilla/5.0 (Linux; Android 7.0; SM-G930V Build/NRD90M) AppleWebKit/537.36 (KHTML, like Gecko) Chrome/59.0.3071.125 Mobile Safari/537.36 (compatible; Google-Read-Aloud; +https://support.google.com/webmasters/answer/1061943", 1.02),
  ("Mozilla/5.0 (iPhone; CPU iPhone OS 18_3_0 like Mac OS X) AppleWebKit/605.1.15 (KHTML, like Gecko) CriOS/133.0.6943.33 Mobile/15E148 Safari/604.", 1.02)]

def DESKTOP_MOBILE_RATIO : Rat × Rat := (57.4, 42.6)

/-- Result of `Url::parse` as consumed by `generate_referrer`: scheme, host
(`host_str`, absent for host-less URLs) and path. -/
structure UrlParts where
  scheme : String
  host : Option String
  path : String

structure RequestFingerprint where
  user_agent : String
  referrer : Option String

/-- `RequestFingerprint::generate_user_agent`: one `random_bool` draw picks
the mobile or desktop table, then `choose_weighted` draws the agent. -/
def generate_user_agent (R : RngOps) (rng : Nat) : String × Nat :=
  match R.randomBool ( DESKTOP_MOBILE_RATIO.2 / 100) rng with
  | (is_mobile, rng1) =>
    match R.chooseWeighted (if is_mobile then MOBILE_USER_AGENTS else DESKTOP_USER_AGENTS) rng1 with
    | (item, rng2) => (item.1, rng2)

/-- `RequestFingerprint::generate_referrer`: `None` on an unparseable URL;
otherwise `scheme://host` iff the path is not `/` and the (short-circuited)
`!rng.random_bool(0.1)` draw is `false`-on-`random_bool`, i.e. the
Bernoulli(0.9) event of the spec occurs. -/
def generate_referrer (R : RngOps) (parse : String → Option UrlParts)
    (url : String) (rng : Nat) : Option String × Nat :=
  match parse url with
  | none => (none, rng)
  | some p =>
    if p.path ≠ "/" then
      match R.randomBool (1 / 10) rng with
      | (b, rng1) =>
        (if b = false then some (p.scheme ++ "://" ++ p.host.getD "") else none, rng1)
    else (none, rng)

/-- `DefaultHasher` over `IpAddr` stays abstract: `ipSeed` is the function
`ip_seed`, and `Ip` the type `IpAddr`. -/
def RequestFingerprint.new {Ip : Type} (R : RngOps) (ipSeed : Ip → Nat)
    (parse : String → Option UrlParts) (ip : Ip) (url : String) : RequestFingerprint :=
  match generate_user_agent R (R.seedFromU64 (ipSeed ip)) with
  | (ua, rng1) => { user_agent := ua, referrer := (generate_referrer R parse url rng1).1 }

/-- C5: for a parseable URL, the referer is `scheme://host` exactly when the
path differs from `/` and the Bernoulli(0.9) event (the complement of the
`random_bool(0.1)` draw) occurs, and absent otherwise. -/
theorem generate_referrer_rule (R : RngOps) (parse : String → Option UrlParts)
    (url : String) (rng : Nat) (p : UrlParts) (h : parse url = some p) :
    (generate_referrer R parse url rng).1
      = if p.path ≠ "/" ∧ (R.randomBool (1 / 10) rng).1 = false
        then some (p.scheme ++ "://" ++ p.host.getD "")
        else none := by
  unfold generate_referrer
  rw [h]
  by_cases hp : p.path = "/"
  · simp [hp]
  · rcases hb : R.randomBool (1 / 10) rng with ⟨b, rng1⟩
    cases b
    · simp [hp, hb]
    · simp [hp, hb]

/-- Witness for C5 with a concrete RNG model and parser. -/
theorem generate_referrer_rule_witness :
    (generate_referrer
        (RngOps.mk id (fun _ s => (false, s + 1)) (fun pool s => (pool.headD ("", 0), s + 1)))
        (fun _ => some (UrlParts.mk "https" (some "example.com") "/page"))
        "https://example.com/page" 0).1
      = some "https://example.com" := by
  rw [generate_referrer_rule
    (RngOps.mk id (fun _ s => (false, s + 1)) (fun pool s => (pool.headD ("", 0), s + 1)))
    (fun _ => some (UrlParts.mk "https" (some "example.com") "/page"))
    "https://example.com/page" 0
    (UrlParts.mk "https" (some "example.com") "/page") rfl]
  rfl

/-- C9: the chosen User-Agent depends only on the IP: the RNG is seeded from
a hash of the IP alone and the User-Agent is drawn before the referer, so
two fingerprints for the same IP and different URLs agree on it. -/
theorem user_agent_depends_only_on_ip {Ip : Type} (R : RngOps) (ipSeed : Ip → Nat)
    (parse : String → Option UrlParts) (ip : Ip) (u1 u2 : String) :
    (RequestFingerprint.new R ipSeed parse ip u1).user_agent
      = (RequestFingerprint.new R ipSeed parse ip u2).user_agent := by
  unfold RequestFingerprint.new
  rcases generate_user_agent R (R.seedFromU64 (ipSeed ip)) with ⟨ua, rng1⟩
  rfl

/-! ## Persistence: `src/genesis/src/db.rs` -/

structure MetaTag where
  name : String
  content : String
deriving Repr, DecidableEq

structure SeoAnalysis where
  url : String
  language : String
  title : String
  meta_tags : List MetaTag
  canonical_url : Option String
  content_text : String
deriving Repr, DecidableEq

/-- Rust `char::is_control`: the Unicode `Cc` category,
`U+0000`–`U+001F` and `U+007F`–`U+009F`. -/
def isRustControl (c : Char) : Bool :=
  c.toNat < 0x20 || (0x7f ≤ c.toNat && c.toNat ≤ 0x9f)

/-- `sanitize_text`: keep only characters that are neither control
characters nor NUL. -/
def sanitize_text (s : String) : String :=
  String.mk (s.data.filter (fun c => !isRustControl c && !(c == Char.ofNat 0)))

/-- `sanitize_analysis`: sanitize every string field of a record. -/
def sanitize_analysis (a : SeoAnalysis) : SeoAnalysis :=
  { url := sanitize_text a.url,
    language := sanitize_text a.language,
    title := sanitize_text a.title,
    meta_tags := a.meta_tags.map
      (fun t => MetaTag.mk (sanitize_text t.name) (sanitize_text t.content)),
    canonical_url := a.canonical_url.map (fun u => sanitize_text u),
    content_text := sanitize_text a.content_text }

def CHUNK_SIZE : Nat := 10000

/-- `analyses.chunks(10_000)`. -/
def chunksOf : List SeoAnalysis → List (List SeoAnalysis)
  | [] => []
  | a :: rest => ((a :: rest).take CHUNK_SIZE) :: chunksOf ((a :: rest).drop CHUNK_SIZE)
termination_by l => l.length
decreasing_by
  simp [CHUNK_SIZE]
  omega

/-- The records serialized into the JSONL bodies uploaded by
`save_analyses_batch`: each 10 000-record chunk is sanitized record by
record at write time, the in-memory input staying untouched.  (A chunk of a
non-empty list is non-empty, so the `body.is_empty` skip drops no record.) -/
def save_analyses_batch_written (analyses : List SeoAnalysis) : List SeoAnalysis :=
  (chunksOf analyses).flatMap (fun chunk => chunk.map sanitize_analysis)

theorem save_written_eq_aux (n : Nat) :
    ∀ l : List SeoAnalysis, l.length ≤ n →
    save_analyses_batch_written l = l.map sanitize_analysis := by
  induction n with
  | zero =>
    intro l hl
    have hnil : l = [] := List.eq_nil_of_length_eq_zero (by omega)
    subst hnil
    simp [save_analyses_batch_written, chunksOf]
  | succ n ih =>
    intro l hl
    cases l with
    | nil => simp [save_analyses_batch_written, chunksOf]
    | cons a rest =>
      have hdroplen : ((a :: rest).drop CHUNK_SIZE).length ≤ n := by
        simp only [List.length_drop, List.length_cons] at *
        simp [CHUNK_SIZE]
        omega
      have hrec := ih ((a :: rest).drop CHUNK_SIZE) hdroplen
      unfold save_analyses_batch_written at hrec ⊢
      rw [chunksOf, List.flatMap_cons, hrec]
      rw [← List.map_append, List.take_append_drop]

/-- Every record in the written output is the sanitized image of the
corresponding raw record. -/
theorem save_written_eq (analyses : List SeoAnalysis) :
    save_analyses_batch_written analyses = analyses.map sanitize_analysis :=
  save_written_eq_aux analyses.length analyses le_rfl

/-- A string free of ASCII control characters (`U+0000`–`U+001F`, `U+007F`),
NUL included. -/
def asciiControlFree (s : String) : Prop :=
  ∀ c ∈ s.data, ¬(c.toNat ≤ 0x1f ∨ c.toNat = 0x7f)

/-- All string fields of a record are free of ASCII control characters and
NULs. -/
def CleanRecord (r : SeoAnalysis) : Prop :=
  asciiControlFree r.url ∧ asciiControlFree r.language ∧ asciiControlFree r.title
  ∧ (∀ t ∈ r.meta_tags, asciiControlFree t.name ∧ asciiControlFree t.content)
  ∧ (∀ cu, r.canonical_url = some cu → asciiControlFree cu)
  ∧ asciiControlFree r.content_text

theorem sanitize_text_clean (s : String) : asciiControlFree (sanitize_text s) := by
  intro c hc
  simp only [sanitize_text, String.data] at hc
  rw [List.mem_filter] at hc
  obtain ⟨-, hpred⟩ := hc
  simp only [Bool.and_eq_true, Bool.not_eq_true'] at hpred
  obtain ⟨hctl, -⟩ := hpred
  simp only [isRustControl, Bool.or_eq_false_iff, decide_eq_false_iff_not,
    Bool.and_eq_false_iff] at hctl
  omega

theorem sanitize_analysis_clean (a : SeoAnalysis) : CleanRecord (sanitize_analysis a) := by
  refine ⟨sanitize_text_clean _, sanitize_text_clean _, sanitize_text_clean _, ?_, ?_,
    sanitize_text_clean _⟩
  · intro t ht
    simp only [sanitize_analysis, List.mem_map] at ht
    obtain ⟨t0, -, rfl⟩ := ht
    exact ⟨sanitize_text_clean _, sanitize_text_clean _⟩
  · intro cu hcu
    simp only [sanitize_analysis, Option.map_eq_some'] at hcu
    obtain ⟨u, -, rfl⟩ := hcu
    exact sanitize_text_clean _

/-- C8: every record actually serialized by `save_analyses_batch` is the
write-time sanitized image of its in-memory record, and all its string
fields (url, language, title, meta tag names and contents, canonical url,
content text) are free of ASCII control characters and NULs. -/
theorem save_analyses_batch_sanitizes (analyses : List SeoAnalysis) :
    save_analyses_batch_written analyses = analyses.map sanitize_analysis
    ∧ ∀ r ∈ save_analyses_batch_written analyses, CleanRecord r := by
  refine ⟨save_written_eq analyses, ?_⟩
  intro r hr
  rw [save_written_eq, List.mem_map] at hr
  obtain ⟨a, -, rfl⟩ := hr
  exact sanitize_analysis_clean a

/-- Witness for C8 on a record containing a NUL and a newline. -/
theorem save_analyses_batch_sanitizes_witness :
    CleanRecord (sanitize_analysis
      (SeoAnalysis.mk "a\x00b" "en" "ti\ntle" [MetaTag.mk "n" "c\x01"] (some "cu") "body")) :=
  (save_analyses_batch_sanitizes
      [SeoAnalysis.mk "a\x00b" "en" "ti\ntle" [MetaTag.mk "n" "c\x01"] (some "cu") "body"]).2
    _ (by rw [save_written_eq]; simp)

/-! ## HTML extraction: `src/genesis/src/html_parser.rs` (canonical URL) -/

/-- An HTML start element as delivered to the streaming rewriter's element
handlers, in document order: tag name and attribute list. -/
structure Element where
  tag : String
  attrs : List (String × String)
deriving Repr, DecidableEq

/-- `Element::get_attribute`: value of the first attribute with the given
name. -/
def getAttr (el : Element) (name : String) : Option String :=
  (el.attrs.find? (fun a => a.1 == name)).map Prod.snd

/-- The selector `link[rel='canonical']`. -/
def isCanonicalLink (el : Element) : Bool :=
  el.tag == "link" && getAttr el "rel" == some "canonical"

/-- The `link[rel='canonical']` handler body: every matching element with an
`href` attribute overwrites `result.canonical_url` with `Some(href)`. -/
def canonicalStep (cur : Option String) (el : Element) : Option String :=
  if isCanonicalLink el then
    match getAttr el "href" with
    | some href => some href
    | none => cur
  else cur

/-- The `canonical_url` field produced by `parse_html` over the element
stream, starting from `None`. -/
def canonicalOf (doc : List Element) : Option String :=
  doc.foldl canonicalStep none

theorem canonicalStep_eq_or (cur : Option String) (el : Element) :
    canonicalStep cur el
      = (if isCanonicalLink el then getAttr el "href" else none).or cur := by
  unfold canonicalStep
  by_cases hc : isCanonicalLink el
  · rw [if_pos hc, if_pos hc]
    rcases getAttr el "href" with _ | v <;> rfl
  · rw [if_neg hc, if_neg hc]
    rfl

theorem getLast?_cons_or {α : Type} (v : α) (xs : List α) :
    (v :: xs).getLast? = xs.getLast?.or (some v) := by
  induction xs generalizing v with
  | nil => rfl
  | cons w ws ih =>
    rw [List.getLast?_cons_cons, ih w, Option.or_assoc]
    rfl

theorem canonicalOf_foldl (doc : List Element) :
    ∀ init : Option String,
    doc.foldl canonicalStep init
      = ((doc.filterMap
            (fun el => if isCanonicalLink el then getAttr el "href" else none)).getLast?).or
          init := by
  induction doc with
  | nil =>
    intro init
    rfl
  | cons el doc ih =>
    intro init
    rw [List.foldl_cons, ih (canonicalStep init el), canonicalStep_eq_or,
      List.filterMap_cons]
    rcases hf : (if isCanonicalLink el then getAttr el "href" else none) with _ | v
    · rw [Option.none_or]
    · rw [getLast?_cons_or, Option.or_assoc]

/-- C3 counterexample: with two `<link rel="canonical">` elements the code
keeps the href of the LAST one, not the first. -/
theorem canonical_url_not_first :
    canonicalOf
        [Element.mk "link" [("rel", "canonical"), ("href", "https://first.example/")],
         Element.mk "link" [("rel", "canonical"), ("href", "https://second.example/")]]
      = some "https://second.example/"
    ∧ canonicalOf
        [Element.mk "link" [("rel", "canonical"), ("href", "https://first.example/")],
         Element.mk "link" [("rel", "canonical"), ("href", "https://second.example/")]]
      ≠ some "https://first.example/" := by
  constructor
  · rfl
  · decide

/-- C3 (amended): `parse_html` returns as `canonical_url` the raw `href` of
the last `<link rel="canonical">` element carrying an `href` attribute, and
`None` when no such element exists. -/
theorem canonical_url_is_last_href (doc : List Element) :
    canonicalOf doc
      = (doc.filterMap
          (fun el => if isCanonicalLink el then getAttr el "href" else none)).getLast? := by
  rw [canonicalOf, canonicalOf_foldl doc none, Option.or_none]

end Genesis
